import Mathlib

/-!
Verification development for the image-compression CLI
(source: img_compress_cli.py).

The embedding is shallow: byte buffers are lists of naturals, images are
records of mode, dimensions and an RGBA-interpreted pixel list, and the
encoder is an abstract function parameter (the real encoder is the external
PIL library, modelled as an arbitrary pure function, which is exactly its
documented contract: deterministic and side-effect free).  Sizes in
kilobytes are exact rationals, faithfully mirroring the Python float
arithmetic, which is exact for all values produced here (lengths divided by
the power of two 1024).
-/

/-- A pixel with red, green, blue and alpha channels.  Channels are stored as
rationals; alpha is normalised so that 1 means fully opaque and 0 fully
transparent.  Pixels of modes without an alpha channel carry alpha 1. -/
structure Pixel where
  r : ℚ
  g : ℚ
  b : ℚ
  a : ℚ
deriving Repr, DecidableEq

/-- In-memory decoded image: color mode string (as in PIL: "RGB", "RGBA",
"LA", "P", "L", ...), dimensions, pixel buffer, and whether the image info
dictionary carries a transparency entry (used for palette mode "P").
Pixel values are stored already interpreted as RGBA rationals, abstracting
palette lookup and gray replication. -/
structure Image where
  mode : String
  width : ℕ
  height : ℕ
  pixels : List Pixel
  transparency : Bool
deriving Repr, DecidableEq

/-- Per-pixel alpha compositing of a source pixel over a destination pixel
(the over operator used by PIL Image.alpha_composite, in exact arithmetic):
the output alpha is sa + da*(1-sa) and the output color is the
alpha-weighted average of source and destination colors. -/
def alpha_composite_pixel (dst src : Pixel) : Pixel :=
  let oa : ℚ := src.a + dst.a * (1 - src.a)
  if oa = 0 then ⟨0, 0, 0, 0⟩
  else ⟨(src.r * src.a + dst.r * dst.a * (1 - src.a)) / oa,
        (src.g * src.a + dst.g * dst.a * (1 - src.a)) / oa,
        (src.b * src.a + dst.b * dst.a * (1 - src.a)) / oa,
        oa⟩

/-- Image.new: a fresh image of the given mode and size filled with a
constant color.  Only used with mode "RGB" here, whose pixels are opaque. -/
def Image.new (m : String) (w h : ℕ) (c : Pixel) : Image :=
  ⟨m, w, h, List.replicate (w * h) ⟨c.r, c.g, c.b, 1⟩, false⟩

/-- Image.convert restricted to the conversions the program performs:
conversion to "RGBA" keeps pixels of alpha-bearing modes and makes other
modes opaque; conversion to "RGB" drops the alpha channel (alpha becomes 1
in this representation).  Any other target mode is out of scope and keeps
the image unchanged. -/
def Image.convert (img : Image) (m : String) : Image :=
  if m = "RGB" then
    { img with mode := "RGB", pixels := img.pixels.map fun p => ⟨p.r, p.g, p.b, 1⟩ }
  else if m = "RGBA" then
    if img.mode = "RGBA" ∨ img.mode = "LA" ∨ (img.mode = "P" ∧ img.transparency) then
      { img with mode := "RGBA" }
    else
      { img with mode := "RGBA", pixels := img.pixels.map fun p => ⟨p.r, p.g, p.b, 1⟩ }
  else img

/-- Image.alpha_composite dst src: pixelwise over-composition; the result
has the destination geometry (PIL requires both images to agree in size). -/
def Image.alpha_composite (dst src : Image) : Image :=
  { dst with mode := "RGBA",
             pixels := List.zipWith alpha_composite_pixel dst.pixels src.pixels }

/-- normalize_for_output from the source: for output format "jpg", images
carrying transparency (modes RGBA, LA, or P with a transparency entry) are
flattened onto an opaque background of color bg and the result converted to
RGB; non-RGB opaque images are converted to RGB; everything else (formats
"png" and "webp") passes through unchanged.  bg is the already parsed
background color (ImageColor.getrgb is external string parsing glue). -/
def normalize_for_output (img : Image) (out_fmt : String) (bg : Pixel) : Image :=
  if out_fmt = "jpg" then
    if img.mode = "RGBA" ∨ img.mode = "LA" ∨ (img.mode = "P" ∧ img.transparency) then
      (Image.alpha_composite
        ((Image.new "RGB" img.width img.height bg).convert "RGBA")
        (img.convert "RGBA")).convert "RGB"
    else if ¬ img.mode = "RGB" then
      img.convert "RGB"
    else img
  else img

/-- size_kb from the source: exact length in bytes divided by 1024, no
rounding (the Python float division is exact here since 1024 is a power of
two). -/
def size_kb (data : List ℕ) : ℚ :=
  (data.length : ℚ) / 1024

/-- Result of find_best_quality_lossy.  The probes field is proof
instrumentation recording, in order, every quality value passed to the
encoder during the search; it does not exist in the source, whose other
fields are returned unchanged. -/
structure SearchOut where
  bytes : List ℕ
  quality : ℤ
  iterations : ℕ
  status : String
  probes : List ℤ
deriving Repr, DecidableEq

/-- The while loop of find_best_quality_lossy: integer bisection over
[lo, hi] keeping the best (bytes, quality) seen whose size fits the target.
mid is floor((lo+hi)/2), matching Python floor division. -/
def bisectLoop (enc : ℤ → List ℕ) (t : ℚ) (lo hi : ℤ) (best_b : List ℕ)
    (best_q : ℤ) (iterations : ℕ) (probes : List ℤ) : SearchOut :=
  if h : lo ≤ hi then
    if size_kb (enc ((lo + hi).fdiv 2)) ≤ t then
      bisectLoop enc t ((lo + hi).fdiv 2 + 1) hi (enc ((lo + hi).fdiv 2))
        ((lo + hi).fdiv 2) (iterations + 1) (probes ++ [(lo + hi).fdiv 2])
    else
      bisectLoop enc t lo ((lo + hi).fdiv 2 - 1) best_b best_q
        (iterations + 1) (probes ++ [(lo + hi).fdiv 2])
  else
    ⟨best_b, best_q, iterations, "ok", probes⟩
termination_by (hi + 1 - lo).toNat
decreasing_by
  · have h2 : lo ≤ (lo + hi).fdiv 2 ∧ (lo + hi).fdiv 2 ≤ hi := by
      rw [Int.fdiv_eq_ediv _ (by omega)]
      omega
    omega
  · have h2 : lo ≤ (lo + hi).fdiv 2 ∧ (lo + hi).fdiv 2 ≤ hi := by
      rw [Int.fdiv_eq_ediv _ (by omega)]
      omega
    omega

/-- find_best_quality_lossy from the source, with enc standing for the
closure S(q) = encode_to_bytes(img, out_fmt, quality=q): probe q_max, then
q_min, then bisect for the highest quality whose encoded size fits the
target. -/
def find_best_quality_lossy (enc : ℤ → List ℕ) (target_kb : ℤ)
    (q_min q_max : ℤ) : SearchOut :=
  if size_kb (enc q_max) ≤ (target_kb : ℚ) then
    ⟨enc q_max, q_max, 1, "already_ok_at_qmax", [q_max]⟩
  else if (target_kb : ℚ) < size_kb (enc q_min) then
    ⟨enc q_min, q_min, 2, "no_solution_within_bounds", [q_max, q_min]⟩
  else
    bisectLoop enc (target_kb : ℚ) q_min q_max (enc q_min) q_min 2 [q_max, q_min]

/-- Round a rational to the nearest integer, ties to even: the semantics of
Python round on a float argument (exact for every value arising here). -/
def roundHalfEven (x : ℚ) : ℤ :=
  if x - ⌊x⌋ < 1 / 2 then ⌊x⌋
  else if 1 / 2 < x - ⌊x⌋ then ⌊x⌋ + 1
  else if ⌊x⌋ % 2 = 0 then ⌊x⌋ else ⌊x⌋ + 1

/-- Python round(x, 2): round to the nearest multiple of 1/100, ties to
even. -/
def round2 (x : ℚ) : ℚ :=
  (roundHalfEven (x * 100) : ℚ) / 100

/-- The metadata dictionary attached to a compression result.  Fields that
appear only in one of the two paths (quality bounds echo for the lossy
path, the note string for the png path) are optional. -/
structure Meta where
  status : String
  out_fmt : String
  quality : Option ℤ
  iterations : ℕ
  width : ℕ
  height : ℕ
  final_kb : ℚ
  target_kb : ℤ
  qmin : Option ℤ
  qmax : Option ℤ
  note : Option String
deriving Repr, DecidableEq

/-- The request fields compress reads from the parsed arguments. -/
structure Args where
  out_fmt : String
  target_kb : ℤ
  q_min : ℤ
  q_max : ℤ
deriving Repr, DecidableEq

/-- compress_png_mvp from the source: one quality-less png encode; the
status compares the size rounded to two decimals against the target. -/
def compress_png_mvp (encode : Image → String → Option ℤ → List ℕ)
    (img : Image) (target_kb : ℤ) : List ℕ × Meta :=
  let out_bytes := encode img "png" none
  let final := round2 (size_kb out_bytes)
  ⟨out_bytes,
   { status := if final ≤ (target_kb : ℚ) then "ok" else "png_over_target",
     out_fmt := "png", quality := none, iterations := 0,
     width := img.width, height := img.height, final_kb := final,
     target_kb := target_kb, qmin := none, qmax := none,
     note := some "PNG is lossless; MVP only applies lossless optimization." }⟩

/-- compress from the source: dispatch on the output format, delegating to
the quality search for "jpg"/"webp" and to the single-shot png path for
"png"; any other format raises ValueError, modelled as Except.error. -/
def compress (encode : Image → String → Option ℤ → List ℕ) (img : Image)
    (args : Args) : Except String (List ℕ × Meta) :=
  if args.out_fmt = "jpg" ∨ args.out_fmt = "webp" then
    let r := find_best_quality_lossy (fun q => encode img args.out_fmt (some q))
      args.target_kb args.q_min args.q_max
    Except.ok ⟨r.bytes,
      { status := r.status, out_fmt := args.out_fmt, quality := some r.quality,
        iterations := r.iterations, width := img.width, height := img.height,
        final_kb := round2 (size_kb r.bytes), target_kb := args.target_kb,
        qmin := some args.q_min, qmax := some args.q_max, note := none }⟩
  else if args.out_fmt = "png" then
    Except.ok (compress_png_mvp encode img args.target_kb)
  else
    Except.error ("Unsupported out_fmt: " ++ args.out_fmt)

/-- The bisection midpoint stays inside a nonempty interval. -/
theorem mid_bounds {lo hi : ℤ} (h : lo ≤ hi) :
    lo ≤ (lo + hi).fdiv 2 ∧ (lo + hi).fdiv 2 ≤ hi := by
  rw [Int.fdiv_eq_ediv _ (by omega)]
  omega

/-- Each bisection step at least halves the size of the interval. -/
theorem mid_halves {lo hi : ℤ} (h : lo ≤ hi) :
    (hi - (lo + hi).fdiv 2).toNat ≤ (hi + 1 - lo).toNat / 2 ∧
    ((lo + hi).fdiv 2 - lo).toNat ≤ (hi + 1 - lo).toNat / 2 := by
  rw [Int.fdiv_eq_ediv _ (by omega)]
  omega

/-- Unfolding bisectLoop on an empty interval: the loop exits. -/
theorem bisectLoop_exit (enc : ℤ → List ℕ) (t : ℚ) (lo hi : ℤ) (b : List ℕ)
    (q : ℤ) (i : ℕ) (ps : List ℤ) (h : ¬ lo ≤ hi) :
    bisectLoop enc t lo hi b q i ps = ⟨b, q, i, "ok", ps⟩ := by
  rw [bisectLoop]
  simp [h]

/-- Unfolding bisectLoop on a nonempty interval: one probe at the midpoint,
then recursion on the upper or the lower half. -/
theorem bisectLoop_step (enc : ℤ → List ℕ) (t : ℚ) (lo hi : ℤ) (b : List ℕ)
    (q : ℤ) (i : ℕ) (ps : List ℤ) (h : lo ≤ hi) :
    bisectLoop enc t lo hi b q i ps =
      if size_kb (enc ((lo + hi).fdiv 2)) ≤ t then
        bisectLoop enc t ((lo + hi).fdiv 2 + 1) hi (enc ((lo + hi).fdiv 2))
          ((lo + hi).fdiv 2) (i + 1) (ps ++ [(lo + hi).fdiv 2])
      else
        bisectLoop enc t lo ((lo + hi).fdiv 2 - 1) b q (i + 1)
          (ps ++ [(lo + hi).fdiv 2]) := by
  rw [bisectLoop]
  simp [h]

/-- Invariant of the loop that needs no monotonicity: the running best is an
encoder output fitting the budget, the result carries the best unchanged or
a better one, and the loop always reports status "ok". -/
theorem bisectLoop_basic (enc : ℤ → List ℕ) (t : ℚ) :
    ∀ N : ℕ, ∀ lo hi : ℤ, ∀ b : List ℕ, ∀ q : ℤ, ∀ i : ℕ, ∀ ps : List ℤ,
      (hi + 1 - lo).toNat ≤ N → size_kb (enc q) ≤ t → b = enc q →
      (bisectLoop enc t lo hi b q i ps).bytes =
        enc (bisectLoop enc t lo hi b q i ps).quality ∧
      size_kb (bisectLoop enc t lo hi b q i ps).bytes ≤ t ∧
      (bisectLoop enc t lo hi b q i ps).status = "ok" := by
  intro N
  induction N with
  | zero =>
    intro lo hi b q i ps hN hq hb
    rw [bisectLoop_exit _ _ _ _ _ _ _ _ (by omega)]
    exact ⟨hb, hb ▸ hq, rfl⟩
  | succ n ih =>
    intro lo hi b q i ps hN hq hb
    by_cases hlh : lo ≤ hi
    · have hm := mid_bounds hlh
      rw [bisectLoop_step _ _ _ _ _ _ _ _ hlh]
      by_cases hs : size_kb (enc ((lo + hi).fdiv 2)) ≤ t
      · rw [if_pos hs]
        exact ih _ _ _ _ _ _ (by omega) hs rfl
      · rw [if_neg hs]
        exact ih _ _ _ _ _ _ (by omega) hq hb
    · rw [bisectLoop_exit _ _ _ _ _ _ _ _ hlh]
      exact ⟨hb, hb ▸ hq, rfl⟩

/-- Claim C5: if the probe at q_max already fits the budget, the search
returns the q_max bytes with quality q_max, status already_ok_at_qmax,
iteration count 1, and a single encode call (the probe list is [q_max]). -/
theorem find_best_already_ok_at_qmax (enc : ℤ → List ℕ)
    (target_kb q_min q_max : ℤ)
    (h : size_kb (enc q_max) ≤ (target_kb : ℚ)) :
    find_best_quality_lossy enc target_kb q_min q_max =
      ⟨enc q_max, q_max, 1, "already_ok_at_qmax", [q_max]⟩ := by
  rw [find_best_quality_lossy, if_pos h]

/-- Encoder producing empty output at every quality (witness input). -/
def encEmpty : ℤ → List ℕ := fun _ => []

/-- Witness for C5 at a concrete encoder, target 0 and bounds 1..5. -/
theorem find_best_already_ok_at_qmax_witness :
    find_best_quality_lossy encEmpty 0 1 5 =
      ⟨encEmpty 5, 5, 1, "already_ok_at_qmax", [5]⟩ :=
  find_best_already_ok_at_qmax encEmpty 0 1 5 (by norm_num [encEmpty, size_kb])

/-- Claim C6: if both initial probes exceed the budget, the search returns
the q_min bytes with quality q_min, status no_solution_within_bounds,
iteration count 2 and exactly the two probe encode calls; the function
returns normally (a successful status, not an exception). -/
theorem find_best_no_solution_within_bounds (enc : ℤ → List ℕ)
    (target_kb q_min q_max : ℤ)
    (h1 : ¬ size_kb (enc q_max) ≤ (target_kb : ℚ))
    (h2 : (target_kb : ℚ) < size_kb (enc q_min)) :
    find_best_quality_lossy enc target_kb q_min q_max =
      ⟨enc q_min, q_min, 2, "no_solution_within_bounds", [q_max, q_min]⟩ := by
  rw [find_best_quality_lossy, if_neg h1, if_pos h2]

/-- Encoder producing two bytes at every quality (witness input). -/
def encTwoBytes : ℤ → List ℕ := fun _ => [0, 0]

/-- Witness for C6 at a concrete encoder, target 0 and bounds 1..5. -/
theorem find_best_no_solution_within_bounds_witness :
    find_best_quality_lossy encTwoBytes 0 1 5 =
      ⟨encTwoBytes 1, 1, 2, "no_solution_within_bounds", [5, 1]⟩ :=
  find_best_no_solution_within_bounds encTwoBytes 0 1 5
    (by norm_num [encTwoBytes, size_kb]) (by norm_num [encTwoBytes, size_kb])

/-- Claim C9: whenever the search ends with status ok or already_ok_at_qmax,
the returned bytes are exactly the encoder output at the returned quality
and they fit the budget; no monotonicity assumption is needed. -/
theorem find_best_ok_bytes_fit_budget (enc : ℤ → List ℕ)
    (target_kb q_min q_max : ℤ) (hq : q_min ≤ q_max)
    (hst : (find_best_quality_lossy enc target_kb q_min q_max).status = "ok" ∨
      (find_best_quality_lossy enc target_kb q_min q_max).status =
        "already_ok_at_qmax") :
    (find_best_quality_lossy enc target_kb q_min q_max).bytes =
      enc (find_best_quality_lossy enc target_kb q_min q_max).quality ∧
    size_kb (find_best_quality_lossy enc target_kb q_min q_max).bytes ≤
      (target_kb : ℚ) := by
  rw [find_best_quality_lossy] at hst ⊢
  by_cases h1 : size_kb (enc q_max) ≤ (target_kb : ℚ)
  · rw [if_pos h1] at hst ⊢
    exact ⟨rfl, h1⟩
  · rw [if_neg h1] at hst ⊢
    by_cases h2 : (target_kb : ℚ) < size_kb (enc q_min)
    · rw [if_pos h2] at hst
      simp at hst
    · rw [if_neg h2]
      have := bisectLoop_basic enc (target_kb : ℚ) (q_max + 1 - q_min).toNat
        q_min q_max (enc q_min) q_min 2 [q_max, q_min] (by omega)
        (not_lt.mp h2) rfl
      exact ⟨this.1, this.2.1⟩

/-- Witness for C9 at a concrete encoder, target 0 and bounds 2..7, where
the search ends with status already_ok_at_qmax. -/
theorem find_best_ok_bytes_fit_budget_witness :
    (find_best_quality_lossy encEmpty 0 2 7).bytes =
      encEmpty (find_best_quality_lossy encEmpty 0 2 7).quality ∧
    size_kb (find_best_quality_lossy encEmpty 0 2 7).bytes ≤ ((0 : ℤ) : ℚ) :=
  find_best_ok_bytes_fit_budget encEmpty 0 2 7 (by decide)
    (Or.inr (by norm_num [find_best_quality_lossy, encEmpty, size_kb]))

/-- Main loop invariant under the monotonicity assumption: the running best
quality fits the budget, lies in [q_min, q_max], everything above hi is
known infeasible, and lo sits just above the best (or both still sit at
q_min).  At exit this pins the returned quality as the highest feasible
one. -/
theorem bisectLoop_inv (enc : ℤ → List ℕ) (t : ℚ) (q_min q_max : ℤ) :
    ∀ N : ℕ, ∀ lo hi q : ℤ, ∀ b : List ℕ, ∀ i : ℕ, ∀ ps : List ℤ,
      (hi + 1 - lo).toNat ≤ N →
      q_min ≤ lo → lo ≤ hi + 1 → hi ≤ q_max →
      q_min ≤ q → q ≤ q_max → size_kb (enc q) ≤ t →
      (lo = q + 1 ∨ (lo = q_min ∧ q = q_min)) →
      (hi = q_max ∨ t < size_kb (enc (hi + 1))) →
      size_kb (enc (bisectLoop enc t lo hi b q i ps).quality) ≤ t ∧
      q_min ≤ (bisectLoop enc t lo hi b q i ps).quality ∧
      (bisectLoop enc t lo hi b q i ps).quality ≤ q_max ∧
      ((bisectLoop enc t lo hi b q i ps).quality = q_max ∨
        t < size_kb (enc ((bisectLoop enc t lo hi b q i ps).quality + 1))) := by
  intro N
  induction N with
  | zero =>
    intro lo hi q b i ps hN hql hlh hhq hq1 hq2 hsq hlo hhi
    rw [bisectLoop_exit _ _ _ _ _ _ _ _ (by omega)]
    dsimp only
    refine ⟨hsq, hq1, hq2, ?_⟩
    rcases hlo with hlo | ⟨hlo, hqm⟩
    · have hhiq : hi = q := by omega
      rcases hhi with hhi | hhi
      · exact Or.inl (by omega)
      · exact Or.inr (by rw [show q + 1 = hi + 1 by omega]; exact hhi)
    · rcases hhi with hhi | hhi
      · omega
      · rw [show hi + 1 = q_min by omega] at hhi
        rw [hqm] at hsq
        exact absurd hsq (not_le.mpr hhi)
  | succ n ih =>
    intro lo hi q b i ps hN hql hlh hhq hq1 hq2 hsq hlo hhi
    by_cases hcond : lo ≤ hi
    · have hm := mid_bounds hcond
      rw [bisectLoop_step _ _ _ _ _ _ _ _ hcond]
      by_cases hs : size_kb (enc ((lo + hi).fdiv 2)) ≤ t
      · rw [if_pos hs]
        exact ih _ _ _ _ _ _ (by omega) (by omega) (by omega) hhq (by omega)
          (by omega) hs (Or.inl rfl) hhi
      · rw [if_neg hs]
        refine ih _ _ _ _ _ _ (by omega) hql (by omega) (by omega) hq1 hq2 hsq
          hlo (Or.inr ?_)
        rw [show (lo + hi).fdiv 2 - 1 + 1 = (lo + hi).fdiv 2 by ring]
        exact not_le.mp hs
    · rw [bisectLoop_exit _ _ _ _ _ _ _ _ hcond]
      dsimp only
      refine ⟨hsq, hq1, hq2, ?_⟩
      rcases hlo with hlo | ⟨hlo, hqm⟩
      · have hhiq : hi = q := by omega
        rcases hhi with hhi | hhi
        · exact Or.inl (by omega)
        · exact Or.inr (by rw [show q + 1 = hi + 1 by omega]; exact hhi)
      · rcases hhi with hhi | hhi
        · omega
        · rw [show hi + 1 = q_min by omega] at hhi
          rw [hqm] at hsq
          exact absurd hsq (not_le.mpr hhi)

/-- Claim C1 (amended): when the encoded size is non-decreasing in quality
on [q_min, q_max] and at least the q_min encode fits the budget, the search
returns a quality in [q_min, q_max] that fits the budget and is the highest
such quality (it equals q_max, or the next quality up is over budget). -/
theorem find_best_monotone_returns_highest_feasible (enc : ℤ → List ℕ)
    (target_kb q_min q_max : ℤ) (hq : q_min ≤ q_max)
    (mono : ∀ a b : ℤ, q_min ≤ a → a ≤ b → b ≤ q_max →
      size_kb (enc a) ≤ size_kb (enc b))
    (hmin : size_kb (enc q_min) ≤ (target_kb : ℚ)) :
    size_kb (enc (find_best_quality_lossy enc target_kb q_min q_max).quality) ≤
      (target_kb : ℚ) ∧
    q_min ≤ (find_best_quality_lossy enc target_kb q_min q_max).quality ∧
    (find_best_quality_lossy enc target_kb q_min q_max).quality ≤ q_max ∧
    ((find_best_quality_lossy enc target_kb q_min q_max).quality = q_max ∨
      (target_kb : ℚ) <
        size_kb (enc ((find_best_quality_lossy enc target_kb q_min q_max).quality + 1))) := by
  rw [find_best_quality_lossy]
  by_cases h1 : size_kb (enc q_max) ≤ (target_kb : ℚ)
  · rw [if_pos h1]
    exact ⟨h1, hq, le_refl q_max, Or.inl rfl⟩
  · rw [if_neg h1]
    rw [if_neg (not_lt.mpr hmin)]
    exact bisectLoop_inv enc (target_kb : ℚ) q_min q_max
      (q_max + 1 - q_min).toNat q_min q_max q_min (enc q_min) 2 [q_max, q_min]
      (by omega) (le_refl q_min) (by omega) (le_refl q_max) (le_refl q_min) hq
      hmin (Or.inr ⟨rfl, rfl⟩) (Or.inl rfl)

/-- Encoder producing one byte at every quality: its size curve is constant,
hence non-decreasing (counterexample input for C1). -/
def encOneByte : ℤ → List ℕ := fun _ => [0]

/-- Counterexample to claim C1 as frozen: with the constant one-byte encoder
(non-decreasing sizes), target 0 and bounds 0..1, the search returns quality
0 whose size 1/1024 KB exceeds the target, so the claimed property
size(returned quality) less than or equal to the target fails: the claim is
false without assuming some quality in the bounds fits the budget. -/
theorem find_best_monotone_claim_false_when_infeasible :
    (∀ a b : ℤ, a ≤ b → size_kb (encOneByte a) ≤ size_kb (encOneByte b)) ∧
    (0 : ℤ) ≤ 1 ∧
    ¬ (size_kb (encOneByte (find_best_quality_lossy encOneByte 0 0 1).quality) ≤
        ((0 : ℤ) : ℚ)) := by
  refine ⟨fun a b _ => le_refl _, by decide, ?_⟩
  norm_num [find_best_quality_lossy, encOneByte, size_kb]

/-- Witness for the amended C1 at a concrete input: the constant empty
encoder with target 0 and bounds 1..4. -/
theorem find_best_monotone_returns_highest_feasible_witness :
    size_kb (encEmpty (find_best_quality_lossy encEmpty 0 1 4).quality) ≤
      ((0 : ℤ) : ℚ) ∧
    (1 : ℤ) ≤ (find_best_quality_lossy encEmpty 0 1 4).quality ∧
    (find_best_quality_lossy encEmpty 0 1 4).quality ≤ 4 ∧
    ((find_best_quality_lossy encEmpty 0 1 4).quality = 4 ∨
      ((0 : ℤ) : ℚ) <
        size_kb (encEmpty ((find_best_quality_lossy encEmpty 0 1 4).quality + 1))) :=
  find_best_monotone_returns_highest_feasible encEmpty 0 1 4 (by decide)
    (fun a b _ _ _ => le_refl _) (by norm_num [encEmpty, size_kb])

/-- Count invariant of the loop: every midpoint probed lies in the current
interval, and the interval passed to the recursive call never contains that
midpoint again; hence the loop adds at most one occurrence of any quality
to the probe list. -/
theorem bisectLoop_count (enc : ℤ → List ℕ) (t : ℚ) (x : ℤ) :
    ∀ N : ℕ, ∀ lo hi : ℤ, ∀ b : List ℕ, ∀ q : ℤ, ∀ i : ℕ, ∀ ps : List ℤ,
      (hi + 1 - lo).toNat ≤ N →
      (bisectLoop enc t lo hi b q i ps).probes.count x ≤
        ps.count x + (if lo ≤ x ∧ x ≤ hi then 1 else 0) := by
  intro N
  induction N with
  | zero =>
    intro lo hi b q i ps hN
    rw [bisectLoop_exit _ _ _ _ _ _ _ _ (by omega)]
    dsimp only
    split <;> omega
  | succ n ih =>
    intro lo hi b q i ps hN
    by_cases hcond : lo ≤ hi
    · have hm := mid_bounds hcond
      have hcnt : (ps ++ [(lo + hi).fdiv 2]).count x =
          ps.count x + (if (lo + hi).fdiv 2 = x then 1 else 0) := by
        rw [List.count_append, List.count_singleton']
      rw [bisectLoop_step _ _ _ _ _ _ _ _ hcond]
      by_cases hs : size_kb (enc ((lo + hi).fdiv 2)) ≤ t
      · rw [if_pos hs]
        have h2 := ih ((lo + hi).fdiv 2 + 1) hi (enc ((lo + hi).fdiv 2))
          ((lo + hi).fdiv 2) (i + 1) (ps ++ [(lo + hi).fdiv 2]) (by omega)
        rw [hcnt] at h2
        refine le_trans h2 ?_
        split_ifs <;> omega
      · rw [if_neg hs]
        have h2 := ih lo ((lo + hi).fdiv 2 - 1) b q (i + 1)
          (ps ++ [(lo + hi).fdiv 2]) (by omega)
        rw [hcnt] at h2
        refine le_trans h2 ?_
        split_ifs <;> omega
    · rw [bisectLoop_exit _ _ _ _ _ _ _ _ hcond]
      dsimp only
      split <;> omega

/-- Claim C3 (amended): within one quality search every quality level is
passed to the encoder at most twice; only the two boundary probes q_max and
q_min can be repeated by the bisection phase, whose own midpoints are
pairwise distinct. -/
theorem find_best_each_quality_encoded_at_most_twice (enc : ℤ → List ℕ)
    (target_kb q_min q_max x : ℤ) :
    (find_best_quality_lossy enc target_kb q_min q_max).probes.count x ≤ 2 := by
  rw [find_best_quality_lossy]
  by_cases h1 : size_kb (enc q_max) ≤ (target_kb : ℚ)
  · rw [if_pos h1]
    exact le_trans (List.count_le_length x [q_max]) (by norm_num)
  · rw [if_neg h1]
    by_cases h2 : (target_kb : ℚ) < size_kb (enc q_min)
    · rw [if_pos h2]
      exact le_trans (List.count_le_length x [q_max, q_min]) (by norm_num)
    · rw [if_neg h2]
      have hne : q_max ≠ q_min := by
        intro heq
        rw [heq] at h1
        exact h1 (le_trans (not_lt.mp h2) (le_refl _))
      have hcnt : ([q_max, q_min] : List ℤ).count x ≤ 1 := by
        by_cases hx1 : q_max = x <;> by_cases hx2 : q_min = x <;>
          simp [List.count_cons, hx1, hx2] <;> omega
      have h3 := bisectLoop_count enc (target_kb : ℚ) x
        (q_max + 1 - q_min).toNat q_min q_max (enc q_min) q_min 2
        [q_max, q_min] (by omega)
      split at h3 <;> omega

/-- Encoder producing one byte at every quality, second copy for the C3
counterexample input. -/
def encOneByteB : ℤ → List ℕ := fun _ => [0]

/-- Counterexample to claim C3 as frozen: with equal bounds 30..30 and a
target both probes exceed, the search encodes quality 30 twice (once as the
q_max probe and once as the q_min probe), so the sequence of qualities
passed to the encoder does contain a duplicate. -/
theorem find_best_duplicate_probe_exists :
    (find_best_quality_lossy encOneByteB 0 30 30).probes = [30, 30] ∧
    ¬ (find_best_quality_lossy encOneByteB 0 30 30).probes.Nodup := by
  have hr : find_best_quality_lossy encOneByteB 0 30 30 =
      ⟨encOneByteB 30, 30, 2, "no_solution_within_bounds", [30, 30]⟩ := by
    rw [find_best_quality_lossy]
    rw [if_neg (by norm_num [encOneByteB, size_kb])]
    rw [if_pos (by norm_num [encOneByteB, size_kb])]
  rw [hr]
  exact ⟨rfl, by decide⟩

/-- Number of bisection steps possible on an interval of n integers:
0 for an empty interval, floor(log2 n) + 1 otherwise. -/
def logBound (n : ℕ) : ℕ :=
  if n = 0 then 0 else Nat.log 2 n + 1

/-- logBound is monotone. -/
theorem logBound_mono {a b : ℕ} (h : a ≤ b) : logBound a ≤ logBound b := by
  rw [logBound, logBound]
  split_ifs with h1 h2
  · omega
  · omega
  · omega
  · exact Nat.add_le_add_right (Nat.log_mono_right h) 1

/-- Halving recurrence for logBound. -/
theorem logBound_half {k : ℕ} (hk : 1 ≤ k) : logBound (k / 2) + 1 ≤ logBound k := by
  by_cases h2 : 2 ≤ k
  · have hdiv : Nat.log 2 (k / 2) = Nat.log 2 k - 1 := Nat.log_div_base 2 k
    have hpos : 0 < Nat.log 2 k := Nat.log_pos (by norm_num) h2
    rw [logBound, logBound]
    split_ifs with ha hb
    · omega
    · omega
    · omega
    · omega
  · have hk1 : k = 1 := by omega
    subst hk1
    simp [logBound, Nat.log_one_right]

/-- Each loop run appends at most logBound of the interval size to the
probe list. -/
theorem bisectLoop_probes_len (enc : ℤ → List ℕ) (t : ℚ) :
    ∀ N : ℕ, ∀ lo hi : ℤ, ∀ b : List ℕ, ∀ q : ℤ, ∀ i : ℕ, ∀ ps : List ℤ,
      (hi + 1 - lo).toNat ≤ N →
      (bisectLoop enc t lo hi b q i ps).probes.length ≤
        ps.length + logBound (hi + 1 - lo).toNat := by
  intro N
  induction N with
  | zero =>
    intro lo hi b q i ps hN
    rw [bisectLoop_exit _ _ _ _ _ _ _ _ (by omega)]
    exact Nat.le_add_right _ _
  | succ n ih =>
    intro lo hi b q i ps hN
    by_cases hcond : lo ≤ hi
    · have hm := mid_bounds hcond
      have hh := mid_halves hcond
      have hpos : 1 ≤ (hi + 1 - lo).toNat := by omega
      rw [bisectLoop_step _ _ _ _ _ _ _ _ hcond]
      by_cases hs : size_kb (enc ((lo + hi).fdiv 2)) ≤ t
      · rw [if_pos hs]
        have h2 := ih ((lo + hi).fdiv 2 + 1) hi (enc ((lo + hi).fdiv 2))
          ((lo + hi).fdiv 2) (i + 1) (ps ++ [(lo + hi).fdiv 2]) (by omega)
        have h3 : logBound ((hi + 1 - ((lo + hi).fdiv 2 + 1)).toNat) ≤
            logBound ((hi + 1 - lo).toNat / 2) :=
          logBound_mono (by omega)
        have h4 := logBound_half hpos
        rw [List.length_append] at h2
        simp only [List.length_cons, List.length_nil] at h2
        omega
      · rw [if_neg hs]
        have h2 := ih lo ((lo + hi).fdiv 2 - 1) b q (i + 1)
          (ps ++ [(lo + hi).fdiv 2]) (by omega)
        have h3 : logBound (((lo + hi).fdiv 2 - 1 + 1 - lo).toNat) ≤
            logBound ((hi + 1 - lo).toNat / 2) :=
          logBound_mono (by omega)
        have h4 := logBound_half hpos
        rw [List.length_append] at h2
        simp only [List.length_cons, List.length_nil] at h2
        omega
    · rw [bisectLoop_exit _ _ _ _ _ _ _ _ hcond]
      exact Nat.le_add_right _ _

/-- The iterations counter of the loop tracks the length of the probe list:
both increase by one at every encode. -/
theorem bisectLoop_iters (enc : ℤ → List ℕ) (t : ℚ) :
    ∀ N : ℕ, ∀ lo hi : ℤ, ∀ b : List ℕ, ∀ q : ℤ, ∀ i : ℕ, ∀ ps : List ℤ,
      (hi + 1 - lo).toNat ≤ N → i = ps.length →
      (bisectLoop enc t lo hi b q i ps).iterations =
        (bisectLoop enc t lo hi b q i ps).probes.length := by
  intro N
  induction N with
  | zero =>
    intro lo hi b q i ps hN hi2
    rw [bisectLoop_exit _ _ _ _ _ _ _ _ (by omega)]
    exact hi2
  | succ n ih =>
    intro lo hi b q i ps hN hi2
    by_cases hcond : lo ≤ hi
    · have hm := mid_bounds hcond
      rw [bisectLoop_step _ _ _ _ _ _ _ _ hcond]
      have hlen : i + 1 = (ps ++ [(lo + hi).fdiv 2]).length := by
        rw [List.length_append]
        simp [hi2]
      by_cases hs : size_kb (enc ((lo + hi).fdiv 2)) ≤ t
      · rw [if_pos hs]
        exact ih _ _ _ _ _ _ (by omega) hlen
      · rw [if_neg hs]
        exact ih _ _ _ _ _ _ (by omega) hlen
    · rw [bisectLoop_exit _ _ _ _ _ _ _ _ hcond]
      exact hi2

/-- Claim C2 (amended): the iteration count the search reports equals the
number of encode calls it makes, and with bounds q_min less than or equal
to q_max that number is at most 3 + floor(log2(q_max - q_min + 1)),
equivalently 2 + ceil(log2(q_max - q_min + 2)); for the default bounds
25..95 this gives at most 7 calls beyond the two initial probes, 9 total. -/
theorem find_best_encode_call_bound (enc : ℤ → List ℕ)
    (target_kb q_min q_max : ℤ) (hq : q_min ≤ q_max) :
    (find_best_quality_lossy enc target_kb q_min q_max).iterations =
      (find_best_quality_lossy enc target_kb q_min q_max).probes.length ∧
    (find_best_quality_lossy enc target_kb q_min q_max).probes.length ≤
      3 + Nat.log 2 (q_max + 1 - q_min).toNat := by
  rw [find_best_quality_lossy]
  by_cases h1 : size_kb (enc q_max) ≤ (target_kb : ℚ)
  · rw [if_pos h1]
    exact ⟨rfl, by simp only [List.length_cons, List.length_nil]; omega⟩
  · rw [if_neg h1]
    by_cases h2 : (target_kb : ℚ) < size_kb (enc q_min)
    · rw [if_pos h2]
      exact ⟨rfl, by simp only [List.length_cons, List.length_nil]; omega⟩
    · rw [if_neg h2]
      have hlen := bisectLoop_probes_len enc (target_kb : ℚ)
        (q_max + 1 - q_min).toNat q_min q_max (enc q_min) q_min 2
        [q_max, q_min] (by omega)
      have hit := bisectLoop_iters enc (target_kb : ℚ)
        (q_max + 1 - q_min).toNat q_min q_max (enc q_min) q_min 2
        [q_max, q_min] (by omega) (by simp)
      have hb : logBound (q_max + 1 - q_min).toNat =
          Nat.log 2 (q_max + 1 - q_min).toNat + 1 := by
        rw [logBound, if_neg (by omega)]
      refine ⟨hit, ?_⟩
      simp only [List.length_cons, List.length_nil] at hlen
      omega

/-- Encoder whose output exceeds a zero budget only at quality 26
(counterexample input for C2). -/
def enc2526 : ℤ → List ℕ := fun q => if q = 26 then [0] else []

/-- Nat.clog 2 2 evaluates to 1 (the ceiling log used by the frozen claim
C2 at its counterexample input). -/
theorem clog_two_two : Nat.clog 2 2 = 1 := by
  have h1 : Nat.clog 2 2 ≤ 1 :=
    (Nat.le_pow_iff_clog_le (by norm_num)).mp (by norm_num)
  have h2 : 0 < Nat.clog 2 2 :=
    (Nat.pow_lt_iff_lt_clog (by norm_num)).mp (by norm_num)
  omega

/-- Concrete run of the search refuting the frozen C2 bound: with bounds
25..26, target 0 and an encoder that fits the budget only below quality 26,
the search probes 26, 25, then bisects probing 25 and 26 again: four encode
calls in total. -/
theorem find_best_enc2526_run :
    find_best_quality_lossy enc2526 0 25 26 = ⟨[], 25, 4, "ok", [26, 25, 25, 26]⟩ := by
  rw [find_best_quality_lossy]
  rw [if_neg (by norm_num [enc2526, size_kb])]
  rw [if_neg (by norm_num [enc2526, size_kb])]
  rw [bisectLoop_step _ _ _ _ _ _ _ _ (by norm_num)]
  rw [if_pos (by norm_num [enc2526, size_kb, Int.fdiv_eq_ediv])]
  norm_num [Int.fdiv_eq_ediv]
  rw [bisectLoop_step _ _ _ _ _ _ _ _ (by norm_num)]
  rw [if_neg (by norm_num [enc2526, size_kb, Int.fdiv_eq_ediv])]
  norm_num [Int.fdiv_eq_ediv]
  rw [bisectLoop_exit _ _ _ _ _ _ _ _ (by norm_num)]
  norm_num [enc2526]

/-- Counterexample to claim C2 as frozen: at bounds 25..26 the claimed
bound on encode calls is 2 + ceil(log2(q_max - q_min + 1)) = 3, but the
search makes 4 encode calls. -/
theorem find_best_encode_call_bound_claim_false :
    2 + Nat.clog 2 ((26 : ℤ) - 25 + 1).toNat <
      (find_best_quality_lossy enc2526 0 25 26).probes.length := by
  rw [find_best_enc2526_run]
  simp only [List.length_cons, List.length_nil]
  rw [show ((26 : ℤ) - 25 + 1).toNat = 2 by decide, clog_two_two]
  omega

/-- Witness for the amended C2 at the default bounds 25..95: at most
3 + floor(log2 71) = 9 encode calls. -/
theorem find_best_encode_call_bound_witness :
    (find_best_quality_lossy encEmpty 0 25 95).iterations =
      (find_best_quality_lossy encEmpty 0 25 95).probes.length ∧
    (find_best_quality_lossy encEmpty 0 25 95).probes.length ≤
      3 + Nat.log 2 ((95 : ℤ) + 1 - 25).toNat :=
  find_best_encode_call_bound encEmpty 0 25 95 (by decide)

/-- Claim C4 (amended): the png path returns the output of its single
quality-less encode call, reports iteration count 0 and no quality value,
and its status is ok exactly when the encoded size rounded to two decimals
is within the target (png_over_target otherwise); the unrounded size is not
what the status comparison uses. -/
theorem compress_png_single_encode_rounded_status
    (encode : Image → String → Option ℤ → List ℕ) (img : Image)
    (target_kb : ℤ) :
    (compress_png_mvp encode img target_kb).1 = encode img "png" none ∧
    (compress_png_mvp encode img target_kb).2.quality = none ∧
    (compress_png_mvp encode img target_kb).2.iterations = 0 ∧
    ((compress_png_mvp encode img target_kb).2.status = "ok" ↔
      round2 (size_kb (encode img "png" none)) ≤ (target_kb : ℚ)) ∧
    ((compress_png_mvp encode img target_kb).2.status = "png_over_target" ↔
      ¬ round2 (size_kb (encode img "png" none)) ≤ (target_kb : ℚ)) := by
  rw [compress_png_mvp]
  refine ⟨rfl, rfl, rfl, ?_, ?_⟩ <;>
    by_cases h : round2 (size_kb (encode img "png" none)) ≤ (target_kb : ℚ) <;>
    simp [h]

/-- Encoder producing 51205 bytes for every request: 50.0048828125 KB,
which exceeds a 50 KB target but rounds to 50.00 (counterexample input for
C4). -/
def encBig : Image → String → Option ℤ → List ℕ := fun _ _ _ => List.replicate 51205 0

/-- A one-pixel opaque RGB image used as concrete input. -/
def imgRGB : Image := ⟨"RGB", 1, 1, [⟨0, 0, 0, 1⟩], false⟩

/-- Counterexample to claim C4 as frozen: a png result of 51205 bytes
against target 50 KB gets status ok although its actual encoded size
exceeds the target, because the code compares the size rounded to two
decimals (50.00) with the target rather than the measured size. -/
theorem compress_png_status_uses_rounded_size :
    (compress_png_mvp encBig imgRGB 50).2.status = "ok" ∧
    (50 : ℚ) < size_kb (compress_png_mvp encBig imgRGB 50).1 := by
  constructor
  · rw [compress_png_mvp]
    norm_num [encBig, size_kb, round2, roundHalfEven]
  · rw [compress_png_mvp]
    norm_num [encBig, size_kb]

/-- Claim C8: size_kb is exactly the byte length divided by 1024 with no
rounding, and on both compress paths the final_kb field of the metadata is
the measured size of the returned bytes, rounded to two decimals only for
the record. -/
theorem compress_final_kb_measured
    (encode : Image → String → Option ℤ → List ℕ) (img : Image) (args : Args)
    (d : List ℕ) (b : List ℕ) (m : Meta)
    (h : compress encode img args = Except.ok (b, m)) :
    size_kb d = (d.length : ℚ) / 1024 ∧
    m.final_kb = round2 (size_kb b) := by
  refine ⟨rfl, ?_⟩
  rw [compress] at h
  by_cases h1 : args.out_fmt = "jpg" ∨ args.out_fmt = "webp"
  · rw [if_pos h1] at h
    simp only [Except.ok.injEq, Prod.mk.injEq] at h
    obtain ⟨hb, hm⟩ := h
    rw [← hm, hb]
  · rw [if_neg h1] at h
    by_cases h2 : args.out_fmt = "png"
    · rw [if_pos h2] at h
      rw [compress_png_mvp] at h
      simp only [Except.ok.injEq, Prod.mk.injEq] at h
      obtain ⟨hb, hm⟩ := h
      rw [← hm, hb]
    · rw [if_neg h2] at h
      exact absurd h (by simp)

/-- The metadata record produced for the witness request below. -/
def metaPngEmpty : Meta :=
  ⟨"ok", "png", none, 0, 1, 1, 0, 1, none, none,
    some "PNG is lossless; MVP only applies lossless optimization."⟩

/-- Encoder producing empty output for every request (witness input). -/
def encodeEmpty : Image → String → Option ℤ → List ℕ := fun _ _ _ => []

/-- Witness for C8: a concrete png request whose final_kb equals the
rounded measured size of the returned bytes. -/
theorem compress_final_kb_measured_witness :
    size_kb [0] = ((1 : ℕ) : ℚ) / 1024 ∧
    metaPngEmpty.final_kb = round2 (size_kb []) :=
  compress_final_kb_measured encodeEmpty imgRGB ⟨"png", 1, 25, 95⟩ [0] []
    metaPngEmpty
    (by rw [compress, if_neg (by decide), if_pos rfl, compress_png_mvp]
        norm_num [encodeEmpty, size_kb, round2, roundHalfEven, metaPngEmpty, imgRGB])

/-- Compositing over a fully opaque destination pixel: the result is opaque
and each color channel is the alpha-weighted average of source and
destination colors. -/
theorem alpha_composite_over_solid (c src : Pixel) (hc : c.a = 1) :
    alpha_composite_pixel c src =
      ⟨src.r * src.a + c.r * (1 - src.a),
       src.g * src.a + c.g * (1 - src.a),
       src.b * src.a + c.b * (1 - src.a), 1⟩ := by
  have hoa : src.a + 1 * (1 - src.a) = 1 := by ring
  have hoa2 : src.a + (1 - src.a) = 1 := by ring
  simp [alpha_composite_pixel, hc, hoa, hoa2]

/-- Claim C10: for the transparency-supporting output formats png and webp,
normalization is the identity on the image (and, the embedding being
purely functional, the input image is never mutated on any path). -/
theorem normalize_identity_for_transparency_formats (img : Image)
    (out_fmt : String) (bg : Pixel)
    (h : out_fmt = "png" ∨ out_fmt = "webp") :
    normalize_for_output img out_fmt bg = img := by
  rcases h with h | h <;> subst h <;> rw [normalize_for_output] <;> simp

/-- A two-pixel RGBA image: one fully opaque red-ish pixel and one fully
transparent pixel (witness input). -/
def imgRGBA : Image := ⟨"RGBA", 2, 1, [⟨3, 4, 5, 1⟩, ⟨6, 7, 8, 0⟩], false⟩

/-- A concrete background color (witness input). -/
def bgPix : Pixel := ⟨9, 10, 11, 1⟩

/-- Witness for C10 at the concrete image above and format png. -/
theorem normalize_identity_for_transparency_formats_witness :
    normalize_for_output imgRGBA "png" bgPix = imgRGBA :=
  normalize_identity_for_transparency_formats imgRGBA "png" bgPix (Or.inl rfl)

/-- Closed form of the jpg normalization of a transparency-bearing image:
the background pixels are composited under the source pixels and the
result converted to an opaque RGB image of the same geometry. -/
theorem normalize_hout (img : Image) (bg : Pixel)
    (halpha : img.mode = "RGBA" ∨ img.mode = "LA" ∨
      (img.mode = "P" ∧ img.transparency)) :
    normalize_for_output img "jpg" bg =
      ⟨"RGB", img.width, img.height,
       (List.zipWith alpha_composite_pixel
          (List.replicate (img.width * img.height) ⟨bg.r, bg.g, bg.b, 1⟩)
          img.pixels).map (fun p => ⟨p.r, p.g, p.b, 1⟩),
       false⟩ := by
  have hbase : (Image.new "RGB" img.width img.height bg).convert "RGBA" =
      ⟨"RGBA", img.width, img.height,
       List.replicate (img.width * img.height) ⟨bg.r, bg.g, bg.b, 1⟩, false⟩ := by
    rw [Image.new, Image.convert, if_neg (by decide), if_pos rfl,
      if_neg (by simp), List.map_replicate]
  have hrgba : img.convert "RGBA" = { img with mode := "RGBA" } := by
    rw [Image.convert, if_neg (by decide), if_pos rfl, if_pos halpha]
  rw [normalize_for_output, if_pos rfl, if_pos halpha, hbase, hrgba]
  rw [Image.alpha_composite, Image.convert, if_pos rfl]

/-- Claim C7: normalizing a transparency-bearing image for the jpg format
yields an opaque RGB image of the same dimensions whose every pixel follows
the per-pixel composition out = src_color * src_alpha + background *
(1 - src_alpha); in particular a fully opaque pixel keeps its color
whatever the background, and a fully transparent pixel becomes exactly the
background color. -/
theorem normalize_jpg_alpha_flatten (img : Image) (bg : Pixel)
    (halpha : img.mode = "RGBA" ∨ img.mode = "LA" ∨
      (img.mode = "P" ∧ img.transparency))
    (hlen : img.pixels.length = img.width * img.height) :
    (normalize_for_output img "jpg" bg).mode = "RGB" ∧
    (normalize_for_output img "jpg" bg).width = img.width ∧
    (normalize_for_output img "jpg" bg).height = img.height ∧
    (normalize_for_output img "jpg" bg).pixels.length = img.pixels.length ∧
    (∀ i : ℕ, ∀ h1 : i < img.pixels.length,
      ∀ h2 : i < (normalize_for_output img "jpg" bg).pixels.length,
      ((normalize_for_output img "jpg" bg).pixels.get ⟨i, h2⟩).r =
          (img.pixels.get ⟨i, h1⟩).r * (img.pixels.get ⟨i, h1⟩).a +
            bg.r * (1 - (img.pixels.get ⟨i, h1⟩).a) ∧
      ((normalize_for_output img "jpg" bg).pixels.get ⟨i, h2⟩).g =
          (img.pixels.get ⟨i, h1⟩).g * (img.pixels.get ⟨i, h1⟩).a +
            bg.g * (1 - (img.pixels.get ⟨i, h1⟩).a) ∧
      ((normalize_for_output img "jpg" bg).pixels.get ⟨i, h2⟩).b =
          (img.pixels.get ⟨i, h1⟩).b * (img.pixels.get ⟨i, h1⟩).a +
            bg.b * (1 - (img.pixels.get ⟨i, h1⟩).a) ∧
      ((normalize_for_output img "jpg" bg).pixels.get ⟨i, h2⟩).a = 1 ∧
      ((img.pixels.get ⟨i, h1⟩).a = 1 →
        ((normalize_for_output img "jpg" bg).pixels.get ⟨i, h2⟩).r =
            (img.pixels.get ⟨i, h1⟩).r ∧
        ((normalize_for_output img "jpg" bg).pixels.get ⟨i, h2⟩).g =
            (img.pixels.get ⟨i, h1⟩).g ∧
        ((normalize_for_output img "jpg" bg).pixels.get ⟨i, h2⟩).b =
            (img.pixels.get ⟨i, h1⟩).b) ∧
      ((img.pixels.get ⟨i, h1⟩).a = 0 →
        ((normalize_for_output img "jpg" bg).pixels.get ⟨i, h2⟩).r = bg.r ∧
        ((normalize_for_output img "jpg" bg).pixels.get ⟨i, h2⟩).g = bg.g ∧
        ((normalize_for_output img "jpg" bg).pixels.get ⟨i, h2⟩).b = bg.b)) := by
  have hout := normalize_hout img bg halpha
  rw [hout]
  refine ⟨rfl, rfl, rfl, by simp [hlen], ?_⟩
  intro i h1 h2
  have hp : (((List.zipWith alpha_composite_pixel
        (List.replicate (img.width * img.height) ⟨bg.r, bg.g, bg.b, 1⟩)
        img.pixels).map (fun p => (⟨p.r, p.g, p.b, 1⟩ : Pixel))).get ⟨i, h2⟩) =
      (⟨(img.pixels.get ⟨i, h1⟩).r * (img.pixels.get ⟨i, h1⟩).a +
          bg.r * (1 - (img.pixels.get ⟨i, h1⟩).a),
        (img.pixels.get ⟨i, h1⟩).g * (img.pixels.get ⟨i, h1⟩).a +
          bg.g * (1 - (img.pixels.get ⟨i, h1⟩).a),
        (img.pixels.get ⟨i, h1⟩).b * (img.pixels.get ⟨i, h1⟩).a +
          bg.b * (1 - (img.pixels.get ⟨i, h1⟩).a), 1⟩ : Pixel) := by
    simp only [List.get_eq_getElem, List.getElem_map, List.getElem_zipWith,
      List.getElem_replicate]
    rw [alpha_composite_over_solid _ _ rfl]
  rw [hp]
  refine ⟨rfl, rfl, rfl, rfl, ?_, ?_⟩
  · intro ha
    rw [ha]
    refine ⟨by ring, by ring, by ring⟩
  · intro ha
    rw [ha]
    refine ⟨by ring, by ring, by ring⟩

/-- Witness for C7 at a concrete two-pixel RGBA image and background. -/
theorem normalize_jpg_alpha_flatten_witness :
    (normalize_for_output imgRGBA "jpg" bgPix).mode = "RGB" ∧
    (normalize_for_output imgRGBA "jpg" bgPix).width = 2 ∧
    (normalize_for_output imgRGBA "jpg" bgPix).height = 1 ∧
    (normalize_for_output imgRGBA "jpg" bgPix).pixels.length = 2 := by
  have h := normalize_jpg_alpha_flatten imgRGBA bgPix (Or.inl rfl) (by rfl)
  exact ⟨h.1, h.2.1, h.2.2.1, h.2.2.2.1⟩
